import Mathlib

/-!
Verification of the commit-message generator core
(`src/GitCommitMessageGenerator.ts`).

Strings are modelled as `List Char`. JavaScript string methods are
embedded faithfully:
* `String.prototype.trim` removes the JS whitespace class (`\s` plus the
  line terminators, which are all contained in `\s`) from both ends;
* `String.prototype.split("\n")` is `splitOnChar '\n'`;
* `text.replace(/"/g, '\\"')` is `escapeQuotes`;
* `Buffer.byteLength(s, "utf8")` is `byteLen` (sum of UTF-8 sizes).

`JSON.parse` is an external JavaScript builtin; it is modelled as an
abstract decoder parameter `dec : List Char → Except Unit Json` into the
JSON value domain `Json`, exactly as the generation backend and the git
primitives are modelled as oracle parameters.
-/

namespace CommitAI

/-- The JavaScript `\s` character class (WhiteSpace ∪ LineTerminator):
space, tab, LF, VT, FF, CR, NBSP, Ogham space, the U+2000–U+200A range,
LS (U+2028), PS (U+2029), U+202F, U+205F, U+3000 and the BOM. -/
def jsWhitespace (c : Char) : Bool :=
  c.toNat = 0x20 || c.toNat = 0x09 || c.toNat = 0x0a || c.toNat = 0x0b ||
  c.toNat = 0x0c || c.toNat = 0x0d || c.toNat = 0xa0 || c.toNat = 0x1680 ||
  (0x2000 ≤ c.toNat && c.toNat ≤ 0x200a) ||
  c.toNat = 0x2028 || c.toNat = 0x2029 || c.toNat = 0x202f ||
  c.toNat = 0x205f || c.toNat = 0x3000 || c.toNat = 0xfeff

/-- JavaScript line terminators: the characters NOT matched by `.` in a
regular expression without the `s` flag (LF, CR, LS, PS). -/
def isLineTerm (c : Char) : Bool :=
  c.toNat = 0x0a || c.toNat = 0x0d || c.toNat = 0x2028 || c.toNat = 0x2029

/-- Every JS line terminator is JS whitespace. -/
theorem jsWhitespace_of_isLineTerm {c : Char} (h : isLineTerm c = true) :
    jsWhitespace c = true := by
  simp only [isLineTerm, jsWhitespace, Bool.or_eq_true, decide_eq_true_eq] at h ⊢
  omega

/-- JavaScript `String.prototype.trim`: strip `\s` characters from both
ends. -/
def trimChars (l : List Char) : List Char :=
  ((l.dropWhile jsWhitespace).reverse.dropWhile jsWhitespace).reverse

/-- JavaScript `String.prototype.split(sep)` for a one-character
separator: `splitOnChar '\n' "a\n" = ["a", ""]`. -/
def splitOnChar (c : Char) : List Char → List (List Char)
  | [] => [[]]
  | d :: r =>
    if d = c then [] :: splitOnChar c r
    else
      match splitOnChar c r with
      | [] => [[d]]
      | g :: gs => (d :: g) :: gs

/-- JavaScript `Array.prototype.join(sep)`. -/
def joinWith (sep : List Char) : List (List Char) → List Char
  | [] => []
  | [l] => l
  | l :: ls => l ++ sep ++ joinWith sep ls

/-- Index of the first occurrence of `pat` as a contiguous sublist of
`s` (the left-to-right scan a JS regex made of plain characters
performs). -/
def subIdx (pat : List Char) : List Char → Option Nat
  | [] => if pat.isPrefixOf ([] : List Char) then some 0 else none
  | c :: r =>
    if pat.isPrefixOf (c :: r) then some 0
    else (subIdx pat r).map (· + 1)

/-- UTF-8 byte length, `Buffer.byteLength(s, "utf8")`. -/
def byteLen (l : List Char) : Nat := (l.map Char.utf8Size).sum

/-- One candidate commit message: the `CommitMessage` record of the
source (`{ title: string; body: string }`). -/
structure CommitMessage where
  title : List Char
  body : List Char
deriving DecidableEq, Repr

/-! ## Fenced-block stripping (Strategy A preprocessing)

`parseCommitMessages` first runs
`response.match(/```json\s*([\s\S]*?)```/)` and decodes the first
capture group when the regex matches, the whole response otherwise.

The regex matches iff the text contains an occurrence of `` ```json ``
followed (after it) by an occurrence of `` ``` ``; the leftmost such
occurrence wins.  (A second occurrence of `` ```json `` cannot overlap
the first one, and itself contains the closing `` ``` ``, so the first
occurrence of `` ```json `` matches whenever any occurrence does.)  The
greedy `\s*` consumes the maximal whitespace run after `` ```json `` —
no backtick is whitespace, so the first closing fence after the opener
also is the first one after that run — and the lazy group stops at the
first closing fence. -/

def fenceOpen : List Char := "```json".toList

def fenceClose : List Char := "```".toList

/-- The `jsonString` of `parseCommitMessages`: the first capture group
of `/```json\s*([\s\S]*?)```/` when the regex matches, the whole
response otherwise. -/
def stripFence (s : List Char) : List Char :=
  match subIdx fenceOpen s with
  | none => s
  | some i =>
    let after := s.drop (i + 7)
    match subIdx fenceClose after with
    | none => s
    | some j => (after.take j).dropWhile jsWhitespace

/-! ## The JSON value domain and Strategy A -/

/-- Values produced by `JSON.parse`. -/
inductive Json where
  | null : Json
  | bool (b : Bool) : Json
  | num (q : Rat) : Json
  | str (s : List Char) : Json
  | arr (xs : List Json) : Json
  | obj (fields : List (List Char × Json)) : Json

/-- JavaScript property lookup on an object built by `JSON.parse`
(duplicate keys: the last occurrence wins). -/
def jsLookup (fields : List (List Char × Json)) (key : List Char) :
    Option Json :=
  fields.foldl (fun acc kv => if kv.1 = key then some kv.2 else acc) none

/-- The raw `(title, body)` pair of one decoded element, when
`msg.title.trim()` / `msg.body.trim()` would succeed: the element must
be an object whose `title` and `body` properties are strings.  On any
other element `.trim()` throws a `TypeError` (property access on
`null` throws even earlier), which aborts the whole `Array.map`. -/
def recordOf : Json → Option (List Char × List Char)
  | Json.obj fields =>
    match jsLookup fields "title".toList, jsLookup fields "body".toList with
    | some (Json.str t), some (Json.str b) => some (t, b)
    | _, _ => none
  | _ => none

/-- `msg => ({ title: msg.title.trim(), body: msg.body.trim() })`,
`none` when that arrow function throws. -/
def tryMsg (j : Json) : Option CommitMessage :=
  (recordOf j).map fun p => ⟨trimChars p.1, trimChars p.2⟩

/-- JavaScript `Array.prototype.map` with a callback that can throw: the
first exception aborts the whole map. -/
def jsArrayMap {α : Type} (f : Json → Option α) : List Json → Option (List α)
  | [] => some []
  | j :: js =>
    match f j, jsArrayMap f js with
    | some a, some as => some (a :: as)
    | _, _ => none

/-- Everything inside the `try` block of `parseCommitMessages`:
strip the fence, decode, insist on an array, map every element.  Any
JavaScript exception (decode error, the explicit non-array `throw`, a
`TypeError` from a malformed element) is an `Except.error`. -/
def strategyA (dec : List Char → Except Unit Json) (response : List Char) :
    Except Unit (List CommitMessage) :=
  match dec (stripFence response) with
  | Except.error _ => Except.error ()
  | Except.ok j =>
    match j with
    | Json.arr xs =>
      match jsArrayMap tryMsg xs with
      | some msgs => Except.ok msgs
      | none => Except.error ()
    | _ => Except.error ()

/-! ## Strategy B: the numbered-list fallback

`parseNumberedList` runs
`/(\d+)\.\s*(.+)\n([\s\S]*?)(?=\n\d+\.|$)/g` in an `exec` loop.  The
embedding follows the backtracking behaviour of that pattern exactly:

* `(\d+)\.` — a maximal digit run followed by a literal dot (giving
  back digits never helps: the character after a shorter run is a
  digit, not a dot);
* `\s*(.+)\n` — greedy whitespace (newlines included), then at least
  one non-line-terminator character up to the next line terminator,
  which must be exactly `'\n'`; on failure the whitespace run gives
  back one character at a time;
* `([\s\S]*?)(?=\n\d+\.|$)` — the lazy body grows until the lookahead
  matches, and the lookahead is satisfied at end of input, so this part
  never fails; the match ends before the lookahead, where the next
  `exec` resumes. -/

/-- `(.+)\n` at the head of `s`: a maximal non-empty run of
non-line-terminator characters followed by a literal newline. -/
def tryTitle (s : List Char) : Option (List Char × List Char) :=
  match s.dropWhile (fun c => !isLineTerm c) with
  | '\n' :: rest =>
    if (s.takeWhile fun c => !isLineTerm c).isEmpty then none
    else some (s.takeWhile (fun c => !isLineTerm c), rest)
  | _ => none

/-- `\s*(.+)\n` at the head of `s`: prefer the longest whitespace run,
backtracking one character at a time. -/
def matchWsTitle : List Char → Option (List Char × List Char)
  | [] => none
  | c :: r =>
    if jsWhitespace c then
      match matchWsTitle r with
      | some p => some p
      | none => tryTitle (c :: r)
    else tryTitle (c :: r)

/-- `(\d+)\.\s*(.+)\n` anchored at the head of `s`; returns the title
capture and the remainder after the newline. -/
def matchHead (s : List Char) : Option (List Char × List Char) :=
  if (s.takeWhile Char.isDigit).isEmpty then none
  else
    match s.dropWhile Char.isDigit with
    | '.' :: r2 => matchWsTitle r2
    | _ => none

/-- The lookahead `(?=\n\d+\.|$)`. -/
def lookaheadEntry (t : List Char) : Bool :=
  match t with
  | [] => true
  | '\n' :: u =>
    !(u.takeWhile Char.isDigit).isEmpty &&
      (u.dropWhile Char.isDigit).head? == some '.'
  | _ => false

/-- `([\s\S]*?)(?=\n\d+\.|$)`: the lazy body capture and the suffix at
which the lookahead fired (where the next `exec` resumes). -/
def takeBody : List Char → List Char × List Char
  | [] => ([], [])
  | c :: u =>
    if lookaheadEntry (c :: u) then ([], c :: u)
    else
      let p := takeBody u
      (c :: p.1, p.2)

/-- Leftmost match of the entry pattern in `s`: `exec` slides the start
position right until the head pattern matches; the body part never
fails.  Returns the title capture, the body capture and the suffix
where the next search resumes. -/
def findMatch : List Char → Option (List Char × List Char × List Char)
  | [] => none
  | c :: r =>
    match matchHead (c :: r) with
    | some (title, rest) =>
      let p := takeBody rest
      some (title, p.1, p.2)
    | none => findMatch r

/-- The loop body of `parseNumberedList`:
`title = match[2].trim()`, and `body` is `match[3]` split on newlines,
each line trimmed, blank lines dropped, re-joined with newlines. -/
def mkNumberedMsg (t b : List Char) : CommitMessage :=
  ⟨trimChars t,
   joinWith ['\n']
     (((splitOnChar '\n' b).map trimChars).filter fun l => !l.isEmpty)⟩

/-- The `while ((match = regex.exec(response)) !== null)` loop, with a
fuel bound: every iteration consumes at least one character, so
`s.length + 1` steps always suffice. -/
def parseLoop : Nat → List Char → List CommitMessage
  | 0, _ => []
  | fuel + 1, s =>
    match findMatch s with
    | none => []
    | some (t, b, rest) => mkNumberedMsg t b :: parseLoop fuel rest

/-- `parseNumberedList` of the source. -/
def parseNumberedList (response : List Char) : List CommitMessage :=
  parseLoop (response.length + 1) response

/-! ## `parseCommitMessages`: the two-strategy cascade -/

/-- Which strategy produced the outcome (instrumentation used to state
that a Strategy A success short-circuits Strategy B). -/
inductive Strat where
  | A : Strat
  | B : Strat
deriving DecidableEq, Repr

/-- `parseCommitMessages`, instrumented with the strategy that produced
the result: the `catch` block of the source hands any Strategy A
exception to `parseNumberedList`. -/
def parseCommitMessagesI (dec : List Char → Except Unit Json)
    (response : List Char) : List CommitMessage × Strat :=
  match strategyA dec response with
  | Except.ok msgs => (msgs, Strat.A)
  | Except.error _ => (parseNumberedList response, Strat.B)

/-- `parseCommitMessages` of the source. -/
def parseCommitMessages (dec : List Char → Except Unit Json)
    (response : List Char) : List CommitMessage :=
  (parseCommitMessagesI dec response).1

/-- `parseCommitMessages` with its JavaScript exception behaviour made
explicit: an `Except.error` would be an uncaught exception escaping the
method. -/
def parseCommitMessagesE (dec : List Char → Except Unit Json)
    (response : List Char) : Except Unit (List CommitMessage) :=
  match strategyA dec response with
  | Except.ok msgs => Except.ok msgs
  | Except.error _ => Except.ok (parseNumberedList response)

/-! ## `generateCommitMessages`: the one-retry policy

The generation backend is an oracle `respond : Nat → List Char` giving
the text of the `n`-th `callClaudeAPI` response.  `callClaudeAPI` is
invoked with the same `diff` both times and builds its prompt purely
from `diff` and the (immutable) options, so two requests are identical
iff they carry the same diff; the instrumentation records the diff of
every request issued, in order. -/

/-- `generateCommitMessages` of the source: parse the first response;
on an empty outcome issue exactly one retry and return its parse
unconditionally.  Returns the outcome together with the list of
requests issued. -/
def generateCommitMessages (dec : List Char → Except Unit Json)
    (diff : List Char) (respond : Nat → List Char) :
    List CommitMessage × List (List Char) :=
  let messages := parseCommitMessages dec (respond 0)
  if messages.length = 0 then
    (parseCommitMessages dec (respond 1), [diff, diff])
  else (messages, [diff])

/-! ## ChangeSetCurator: `shouldSkipFile` and `getFilteredDiff` -/

/-- `shouldSkipFile` of the source: the five exclusion regexes are all
anchored suffix tests. -/
def shouldSkipFile (filename : List Char) : Bool :=
  "package-lock.json".toList.isSuffixOf filename ||
  "yarn.lock".toList.isSuffixOf filename ||
  "pnpm-lock.yaml".toList.isSuffixOf filename ||
  ".svg".toList.isSuffixOf filename ||
  ".map".toList.isSuffixOf filename

/-- `isFileTooLarge` of the source:
`Buffer.byteLength(fileDiff, "utf8") / 1024 > maxFileSizeKB`.  The
float division by 1024 is exact for any byte count below 2^53, so the
comparison is equivalent to `byteLen > maxFileSizeKB * 1024`. -/
def isFileTooLarge (fileDiff : List Char) (maxFileSizeKB : Nat) : Bool :=
  byteLen fileDiff > maxFileSizeKB * 1024

/-- `getFilteredDiff` of the source.  `diffOf` is the
`git diff --staged -- <file>` accessor.  Returns the accumulated diff
and the skip log (one `(file, byte size)` entry per `console.warn`
about a large file, in order). -/
def getFilteredDiff (files : List (List Char))
    (diffOf : List Char → List Char) (maxFileSizeKB : Nat) :
    List Char × List (List Char × Nat) :=
  match files with
  | [] => ([], [])
  | f :: rest =>
    if shouldSkipFile f then getFilteredDiff rest diffOf maxFileSizeKB
    else
      let d := diffOf f
      if isFileTooLarge d maxFileSizeKB then
        let p := getFilteredDiff rest diffOf maxFileSizeKB
        (p.1, (f, byteLen d) :: p.2)
      else
        let p := getFilteredDiff rest diffOf maxFileSizeKB
        (d ++ p.1, p.2)

/-! ## Option resolution -/

/-- The `GeneratorOptions` interface: every field optional.  A `none`
models an absent property (`undefined`). -/
structure GeneratorOptions where
  maxTokens : Option Nat := none
  temperature : Option Rat := none
  model : Option (List Char) := none
  numberOfSuggestions : Option Nat := none
  maxFileSizeKB : Option Nat := none
  language : Option (List Char) := none

/-- JavaScript `x || d` on an optional number: `undefined`, `0` (and
`NaN`, which cannot reach these integer options) are falsy. -/
def orDefaultNat (o : Option Nat) (d : Nat) : Nat :=
  match o with
  | none => d
  | some v => if v = 0 then d else v

/-- JavaScript `x || d` on an optional (possibly fractional) number. -/
def orDefaultRat (o : Option Rat) (d : Rat) : Rat :=
  match o with
  | none => d
  | some v => if v = 0 then d else v

/-- JavaScript `x || d` on an optional string: `undefined` and the
empty string are falsy. -/
def orDefaultStr (o : Option (List Char)) (d : List Char) : List Char :=
  match o with
  | none => d
  | some v => if v.isEmpty then d else v

/-- The supported language codes. -/
def SUPPORTED_LANGUAGES : List (List Char) :=
  ["en".toList, "ko".toList, "ja".toList, "zh-CN".toList, "zh-TW".toList]

/-- `validateLanguage` of the source (the `console.warn` is dropped):
fall back to `"en"` on an empty or unsupported code. -/
def validateLanguage (lang : List Char) : List Char :=
  if lang.isEmpty || !(SUPPORTED_LANGUAGES.contains lang) then "en".toList
  else lang

/-- The resolved options record. -/
structure ResolvedOptions where
  maxTokens : Nat
  temperature : Rat
  model : List Char
  numberOfSuggestions : Nat
  maxFileSizeKB : Nat
  language : List Char
deriving DecidableEq

/-- `initializeOptions` of the source. -/
def initializeOptions (options : GeneratorOptions) : ResolvedOptions :=
  { maxTokens := orDefaultNat options.maxTokens 500
    temperature := orDefaultRat options.temperature 0
    model := orDefaultStr options.model "claude-3-5-sonnet-20241022".toList
    numberOfSuggestions := orDefaultNat options.numberOfSuggestions 3
    maxFileSizeKB := orDefaultNat options.maxFileSizeKB 100
    language := validateLanguage (orDefaultStr options.language "en".toList) }

/-! ## CommitApplier: `commitChanges` and its helpers -/

/-- `validateStagedChanges` of the source: trim the output of
`git diff --staged --name-only` and throw when it is empty. -/
def validateStagedChanges (stagedNames : List Char) :
    Except (List Char) Unit :=
  if (trimChars stagedNames).isEmpty then
    Except.error "No staged changes to commit".toList
  else Except.ok ()

/-- The `fullMessage` of `executeGitCommit`:
`` `${message.title}\n\n${message.body}` `` — the separator is appended
unconditionally. -/
def fullMessageOf (message : CommitMessage) : List Char :=
  message.title ++ '\n' :: '\n' :: message.body

/-- `fullMessage.replace(/"/g, '\\"')`. -/
def escapeQuotes (l : List Char) : List Char :=
  l.flatMap fun c => if c = '"' then ['\\', '"'] else [c]

/-- The command text `executeGitCommit` hands to `execSync`:
`` `git commit -m "${escapedMessage}"` ``. -/
def gitCommitCommand (message : CommitMessage) : List Char :=
  "git commit -m \"".toList ++ escapeQuotes (fullMessageOf message) ++ ['"']

/-- `commitChanges` of the source.  `stagedNames` is the output of the
pending-changes accessor and `primitive` the outcome of `execSync` on
the commit command.  The whole body sits in one `try` whose `catch`
throws `Error("No changes staged for commit")`, so every failure —
precondition or commit-primitive — surfaces as that same error.  The
second component records the command handed to the commit primitive,
`none` when the primitive was never invoked. -/
def commitChanges (stagedNames : List Char) (message : CommitMessage)
    (primitive : List Char → Except (List Char) Unit) :
    Except (List Char) Unit × Option (List Char) :=
  match validateStagedChanges stagedNames with
  | Except.error _ =>
    (Except.error "No changes staged for commit".toList, none)
  | Except.ok _ =>
    let cmd := gitCommitCommand message
    match primitive cmd with
    | Except.error _ =>
      (Except.error "No changes staged for commit".toList, some cmd)
    | Except.ok _ => (Except.ok (), some cmd)

/-- Models POSIX double-quote tokenization, the literal-string quoting
of the shell `execSync` invokes: inside `"` … `"`, a backslash escapes
`"`, `` ` ``, `$`, `\` and a newline (line continuation); before any
other character it stays literal; an unescaped `"` closes the string.
Returns the recovered literal content and the text after the closing
quote, or `none` for an unterminated literal. -/
def dquoteScan : List Char → Option (List Char × List Char)
  | [] => none
  | c :: r =>
    if c = '"' then some ([], r)
    else if c = '\\' then
      match r with
      | [] => none
      | c2 :: r2 =>
        if c2 = '"' || c2 = '\\' || c2 = '$' || c2 = '`' then
          (dquoteScan r2).map fun p => (c2 :: p.1, p.2)
        else if c2 = '\n' then dquoteScan r2
        else (dquoteScan r2).map fun p => ('\\' :: c2 :: p.1, p.2)
    else (dquoteScan r).map fun p => (c :: p.1, p.2)

/-! ## List lemmas -/

theorem length_dropWhile_le (p : Char → Bool) :
    ∀ l : List Char, (l.dropWhile p).length ≤ l.length
  | [] => Nat.le_refl _
  | c :: r => by
    rw [List.dropWhile_cons]
    split
    · exact Nat.le_succ_of_le (length_dropWhile_le p r)
    · exact Nat.le_refl _

theorem takeWhile_app (p : Char → Bool) (r : List Char)
    (hr : ∀ c, r.head? = some c → p c = false) :
    ∀ l : List Char, (∀ c ∈ l, p c = true) →
      (l ++ r).takeWhile p = l ∧ (l ++ r).dropWhile p = r := by
  intro l
  induction l with
  | nil =>
    intro _
    cases r with
    | nil => exact ⟨rfl, rfl⟩
    | cons c r' =>
      simp [List.takeWhile_cons, List.dropWhile_cons, hr c rfl]
  | cons a l ih =>
    intro hl
    have ha : p a = true := hl a (by simp)
    have h2 := ih fun c hc => hl c (by simp [hc])
    simp [List.takeWhile_cons, List.dropWhile_cons, ha, h2.1, h2.2]

theorem dropWhile_dropWhile (p : Char → Bool) (l : List Char) :
    (l.dropWhile p).dropWhile p = l.dropWhile p := by
  induction l with
  | nil => rfl
  | cons a l ih =>
    rw [List.dropWhile_cons]
    split
    · exact ih
    · rw [List.dropWhile_cons]
      simp [*]

theorem splitOnChar_ne_nil (c : Char) (l : List Char) :
    splitOnChar c l ≠ [] := by
  induction l with
  | nil => simp [splitOnChar]
  | cons d r ih =>
    simp only [splitOnChar]
    split
    · simp
    · split <;> simp

theorem splitOnChar_not_mem {c : Char} {l : List Char} (h : c ∉ l) :
    splitOnChar c l = [l] := by
  induction l with
  | nil => rfl
  | cons d r ih =>
    have hd : ¬d = c := fun e => h (by simp [e])
    have hr : c ∉ r := fun e => h (by simp [e])
    simp only [splitOnChar, if_neg hd, ih hr]

theorem splitOnChar_append {c : Char} {l : List Char} (r : List Char)
    (h : c ∉ l) :
    splitOnChar c (l ++ c :: r) = l :: splitOnChar c r := by
  induction l with
  | nil => simp [splitOnChar]
  | cons d t ih =>
    have hd : ¬d = c := fun e => h (by simp [e])
    have ht : c ∉ t := fun e => h (by simp [e])
    have ih' : splitOnChar c (List.append t (c :: r)) = t :: splitOnChar c r :=
      ih ht
    simp only [List.cons_append, splitOnChar, if_neg hd, ih']

theorem joinWith_cons (sep l : List Char) (ls : List (List Char))
    (h : ls ≠ []) :
    joinWith sep (l :: ls) = l ++ sep ++ joinWith sep ls := by
  cases ls with
  | nil => exact absurd rfl h
  | cons m ms => rfl

theorem trimChars_dropWhile (l : List Char) :
    trimChars (l.dropWhile jsWhitespace) = trimChars l := by
  unfold trimChars
  rw [dropWhile_dropWhile]

/-! ## Characterization of the Strategy B match -/

theorem tryTitle_eq_some {s t r : List Char}
    (h : tryTitle s = some (t, r)) :
    s = t ++ '\n' :: r ∧ t ≠ [] := by
  unfold tryTitle at h
  split at h
  next rest heq =>
    split at h
    · exact absurd h (by simp)
    next hne =>
      obtain ⟨rfl, rfl⟩ : s.takeWhile (fun c => !isLineTerm c) = t ∧ rest = r := by
        have := h
        simp only [Option.some.injEq, Prod.mk.injEq] at this
        exact this
      refine ⟨?_, ?_⟩
      · conv_lhs => rw [← List.takeWhile_append_dropWhile (fun c => !isLineTerm c) s]
        rw [heq]
      · simpa using hne
  · exact absurd h (by simp)

theorem tryTitle_app {t : List Char} (r : List Char) (ht : t ≠ [])
    (hterm : ∀ c ∈ t, isLineTerm c = false) :
    tryTitle (t ++ '\n' :: r) = some (t, r) := by
  have hr : ∀ c : Char, ('\n' :: r).head? = some c → (!isLineTerm c) = false := by
    intro c hc
    obtain rfl : c = '\n' := by simpa using hc.symm
    rfl
  have h1 := takeWhile_app (fun c => !isLineTerm c) ('\n' :: r) hr t
    (fun c hc => by simp [hterm c hc])
  have hemp : t.isEmpty = false := by
    cases t with
    | nil => exact absurd rfl ht
    | cons a u => rfl
  unfold tryTitle
  rw [h1.1, h1.2]
  simp [hemp]

theorem matchWsTitle_app {t : List Char} (v : List Char)
    (hterm : ∀ c ∈ t, isLineTerm c = false)
    (hw : ∃ c ∈ t, jsWhitespace c = false) :
    matchWsTitle (t ++ '\n' :: v) = some (t.dropWhile jsWhitespace, v) := by
  induction t with
  | nil =>
    obtain ⟨c, hc, _⟩ := hw
    exact absurd hc (List.not_mem_nil c)
  | cons a t ih =>
    cases haw : jsWhitespace a with
    | true =>
      have hw' : ∃ c ∈ t, jsWhitespace c = false := by
        obtain ⟨c, hc, hcf⟩ := hw
        rcases List.mem_cons.mp hc with rfl | h
        · rw [haw] at hcf; cases hcf
        · exact ⟨c, h, hcf⟩
      have ih' := ih (fun c hc => hterm c (List.mem_cons_of_mem a hc)) hw'
      rw [List.cons_append]
      unfold matchWsTitle
      rw [if_pos haw, ih', List.dropWhile_cons, if_pos haw]
    | false =>
      have h1 : tryTitle ((a :: t) ++ '\n' :: v) = some (a :: t, v) :=
        tryTitle_app v (by simp) hterm
      rw [List.cons_append]
      unfold matchWsTitle
      rw [if_neg (by simp [haw]), ← List.cons_append, h1,
        List.dropWhile_cons, if_neg (by simp [haw])]

theorem matchHead_app {n t : List Char} (v : List Char)
    (hn : n ≠ []) (hdig : ∀ c ∈ n, c.isDigit = true)
    (hterm : ∀ c ∈ t, isLineTerm c = false)
    (hw : ∃ c ∈ t, jsWhitespace c = false) :
    matchHead (n ++ '.' :: (t ++ '\n' :: v)) =
      some (t.dropWhile jsWhitespace, v) := by
  have hr : ∀ c : Char, ('.' :: (t ++ '\n' :: v)).head? = some c →
      c.isDigit = false := by
    intro c hc
    obtain rfl : c = '.' := by simpa using hc.symm
    rfl
  have h1 := takeWhile_app Char.isDigit ('.' :: (t ++ '\n' :: v)) hr n hdig
  have hemp : n.isEmpty = false := by
    cases n with
    | nil => exact absurd rfl hn
    | cons a u => rfl
  unfold matchHead
  rw [h1.1, h1.2]
  simp only [hemp, Bool.false_eq_true, if_false]
  exact matchWsTitle_app v hterm hw

theorem matchHead_nondigit {c : Char} (r : List Char)
    (hc : c.isDigit = false) : matchHead (c :: r) = none := by
  unfold matchHead
  simp [List.takeWhile_cons, hc]

theorem findMatch_of_matchHead {s t r : List Char}
    (h : matchHead s = some (t, r)) :
    findMatch s = some (t, (takeBody r).1, (takeBody r).2) := by
  cases s with
  | nil =>
    unfold matchHead at h
    simp at h
  | cons c u =>
    unfold findMatch
    rw [h]

theorem findMatch_cons_none {c : Char} {r : List Char}
    (h : matchHead (c :: r) = none) : findMatch (c :: r) = findMatch r := by
  conv_lhs => rw [findMatch]
  rw [h]

/-! ## Termination bookkeeping: each match consumes characters -/

theorem takeBody_len : ∀ t : List Char, (takeBody t).2.length ≤ t.length
  | [] => Nat.le_refl _
  | c :: u => by
    unfold takeBody
    split
    · exact Nat.le_refl _
    · exact Nat.le_succ_of_le (takeBody_len u)

theorem tryTitle_len {s t r : List Char} (h : tryTitle s = some (t, r)) :
    r.length < s.length := by
  obtain ⟨rfl, ht⟩ := tryTitle_eq_some h
  rw [List.length_append]
  cases t with
  | nil => exact absurd rfl ht
  | cons a u => simp [List.length_cons]; omega

theorem matchWsTitle_len :
    ∀ {s t r : List Char}, matchWsTitle s = some (t, r) →
      r.length < s.length := by
  intro s
  induction s with
  | nil => intro t r h; exact absurd h (by simp [matchWsTitle])
  | cons c u ih =>
    intro t r h
    unfold matchWsTitle at h
    split at h
    · split at h
      next p heq =>
        cases Option.some.inj h
        exact Nat.lt_succ_of_lt (ih heq)
      · exact tryTitle_len h
    · exact tryTitle_len h

theorem matchHead_len {s t r : List Char} (h : matchHead s = some (t, r)) :
    r.length < s.length := by
  unfold matchHead at h
  split at h
  · exact absurd h (by simp)
  · split at h
    next r2 heq =>
      have h1 : r.length < r2.length + 1 :=
        Nat.lt_succ_of_lt (matchWsTitle_len h)
      have h2 : r2.length + 1 ≤ s.length := by
        have h3 := length_dropWhile_le Char.isDigit s
        rw [heq] at h3
        simpa using h3
      omega
    · exact absurd h (by simp)

theorem findMatch_len :
    ∀ {s : List Char} {t b rest : List Char},
      findMatch s = some (t, b, rest) → rest.length < s.length := by
  intro s
  induction s with
  | nil => intro t b rest h; exact absurd h (by simp [findMatch])
  | cons c u ih =>
    intro t b rest h
    unfold findMatch at h
    split at h
    next title r2 heq =>
      obtain ⟨rfl, rfl, rfl⟩ : _ ∧ _ ∧ _ := by
        have := Option.some.inj h
        simp only [Prod.mk.injEq] at this
        exact ⟨this.1, this.2.1, this.2.2⟩
      calc (takeBody r2).2.length ≤ r2.length := takeBody_len r2
        _ < (c :: u).length := matchHead_len heq
    next heq =>
      exact Nat.lt_succ_of_lt (ih h)

/-! ## Fuel stability and step equations for the exec loop -/

theorem parseLoop_stable :
    ∀ (f1 f2 : Nat) (s : List Char), s.length < f1 → s.length < f2 →
      parseLoop f1 s = parseLoop f2 s := by
  intro f1
  induction f1 with
  | zero => intro f2 s h1 _; exact absurd h1 (Nat.not_lt_zero _)
  | succ n ih =>
    intro f2 s h1 h2
    cases f2 with
    | zero => exact absurd h2 (Nat.not_lt_zero _)
    | succ m =>
      show parseLoop (n + 1) s = parseLoop (m + 1) s
      unfold parseLoop
      cases hf : findMatch s with
      | none => rfl
      | some p =>
        obtain ⟨t, b, rest⟩ := p
        have hlen := findMatch_len hf
        have hn : rest.length < n := by omega
        have hm : rest.length < m := by omega
        show mkNumberedMsg t b :: parseLoop n rest =
          mkNumberedMsg t b :: parseLoop m rest
        rw [ih m rest hn hm]

theorem parseNumberedList_step {s t b rest : List Char}
    (h : findMatch s = some (t, b, rest)) :
    parseNumberedList s = mkNumberedMsg t b :: parseNumberedList rest := by
  unfold parseNumberedList
  conv_lhs => rw [parseLoop]
  rw [h]
  have hlen := findMatch_len h
  show mkNumberedMsg t b :: parseLoop s.length rest = _
  rw [parseLoop_stable s.length (rest.length + 1) rest (by omega) (by omega)]

theorem parseNumberedList_none {s : List Char} (h : findMatch s = none) :
    parseNumberedList s = [] := by
  unfold parseNumberedList
  conv_lhs => rw [parseLoop]
  rw [h]

/-! ## Well-formed numbered responses

Input class for the amended Strategy B claim: a response that is a
concatenation of entry blocks, each a header line
`<digits> "." <title>` terminated by a newline and followed by
newline-terminated body lines that do not themselves begin with
`<digits> "."`.  Every block before another block must have at least
one (possibly blank) body line, since the pattern's `\n` after the
title consumes the only newline separating two adjacent header
lines. -/

/-- One numbered entry block: the digit run of the header, the raw
title text (the rest of the header line) and the raw body lines. -/
structure NumBlock where
  num : List Char
  title : List Char
  body : List (List Char)

/-- A line starting with `<digits> "."` (the shape the lookahead
`(?=\n\d+\.)` detects at a line start). -/
def isEntryStart (l : List Char) : Bool :=
  !(l.takeWhile Char.isDigit).isEmpty &&
    (l.dropWhile Char.isDigit).head? == some '.'

/-- A body line: no embedded newline and not an entry start. -/
def goodLine (l : List Char) : Prop :=
  '\n' ∉ l ∧ isEntryStart l = false

/-- A well-formed block: non-empty digit run, a title with no line
terminator and at least one non-whitespace character, good body
lines. -/
def goodBlock (b : NumBlock) : Prop :=
  b.num ≠ [] ∧ (∀ c ∈ b.num, c.isDigit = true) ∧
  (∀ c ∈ b.title, isLineTerm c = false) ∧
  (∃ c ∈ b.title, jsWhitespace c = false) ∧
  ∀ l ∈ b.body, goodLine l

/-- The text of one block. -/
def blockText (b : NumBlock) : List Char :=
  b.num ++ '.' :: (b.title ++ '\n' :: (b.body.map (· ++ ['\n'])).flatten)

/-- The full response text of a block sequence. -/
def blocksText (bs : List NumBlock) : List Char :=
  (bs.map blockText).flatten

/-- A well-formed block sequence: every block is good, and every block
followed by another one carries at least one body line. -/
def chainOk : List NumBlock → Prop
  | [] => True
  | b :: rest => goodBlock b ∧ (rest = [] ∨ b.body ≠ []) ∧ chainOk rest

/-- The candidate message a block describes: title trimmed, body =
non-blank body lines, each trimmed, joined by single newlines. -/
def blockMsg (b : NumBlock) : CommitMessage :=
  ⟨trimChars b.title,
   joinWith ['\n'] ((b.body.map trimChars).filter fun l => !l.isEmpty)⟩

theorem lookaheadEntry_nl (u : List Char) :
    lookaheadEntry ('\n' :: u) =
      (!(u.takeWhile Char.isDigit).isEmpty &&
        ((u.dropWhile Char.isDigit).head? == some '.')) := rfl

theorem head_dropWhile_false (p : Char → Bool) :
    ∀ (l : List Char) {c : Char} {e : List Char},
      l.dropWhile p = c :: e → p c = false
  | [], c, e, h => by cases h
  | a :: r, c, e, h => by
    rw [List.dropWhile_cons] at h
    split at h
    · exact head_dropWhile_false p r h
    next hna =>
      cases h
      simpa using hna

theorem lookaheadEntry_cons_false {c : Char} (u : List Char)
    (hc : ¬c = '\n') : lookaheadEntry (c :: u) = false := by
  unfold lookaheadEntry
  split
  next heq => exact absurd heq (by simp)
  next u2 heq => exact absurd (List.cons.inj heq).1 hc
  · rfl

theorem lookaheadEntry_nl_goodLine {l : List Char} (w : List Char)
    (hl : isEntryStart l = false) :
    lookaheadEntry ('\n' :: (l ++ '\n' :: w)) = false := by
  rw [lookaheadEntry_nl]
  rcases hdw : l.dropWhile Char.isDigit with _ | ⟨c, e⟩
  · have hall : ∀ c ∈ l, Char.isDigit c = true := by
      intro c hc
      have hl2 : l = l.takeWhile Char.isDigit := by
        conv_lhs => rw [← List.takeWhile_append_dropWhile Char.isDigit l]
        rw [hdw, List.append_nil]
      exact List.mem_takeWhile_imp (hl2 ▸ hc)
    have hs := takeWhile_app Char.isDigit ('\n' :: w)
      (fun c hc => by
        obtain rfl : c = '\n' := by simpa using hc.symm
        rfl) l hall
    rw [hs.2]
    simp
  · have hc : Char.isDigit c = false := head_dropWhile_false Char.isDigit l hdw
    have hdec : l = l.takeWhile Char.isDigit ++ c :: e := by
      conv_lhs => rw [← List.takeWhile_append_dropWhile Char.isDigit l]
      rw [hdw]
    have hs := takeWhile_app Char.isDigit (c :: (e ++ '\n' :: w))
      (fun x hx => by
        obtain rfl : x = c := by simpa using hx.symm
        exact hc) (l.takeWhile Char.isDigit)
      (fun x hx => List.mem_takeWhile_imp hx)
    have harr : l ++ '\n' :: w =
        l.takeWhile Char.isDigit ++ (c :: (e ++ '\n' :: w)) := by
      conv_lhs => rw [hdec]
      simp
    rw [harr, hs.1, hs.2]
    unfold isEntryStart at hl
    rw [hdw] at hl
    simpa using hl

theorem takeBody_fire {t : List Char} (h : lookaheadEntry t = true) :
    takeBody t = ([], t) := by
  cases t with
  | nil => rfl
  | cons c u =>
    unfold takeBody
    rw [if_pos h]

theorem takeBody_cons {c : Char} {u : List Char}
    (h : lookaheadEntry (c :: u) = false) :
    takeBody (c :: u) = (c :: (takeBody u).1, (takeBody u).2) := by
  conv_lhs => rw [takeBody]
  rw [if_neg (by simp [h])]

theorem takeBody_through_line {l : List Char} {w : List Char}
    (hnl : '\n' ∉ l) (hw : lookaheadEntry ('\n' :: w) = false) :
    takeBody (l ++ '\n' :: w) =
      (l ++ '\n' :: (takeBody w).1, (takeBody w).2) := by
  induction l with
  | nil =>
    rw [List.nil_append, takeBody_cons hw, List.nil_append]
  | cons c t ih =>
    have hc : ¬c = '\n' := fun e => hnl (by simp [e])
    have ht : '\n' ∉ t := fun e => hnl (by simp [e])
    rw [List.cons_append,
      takeBody_cons (lookaheadEntry_cons_false (t ++ '\n' :: w) hc),
      ih ht, List.cons_append]

theorem takeBody_until {l : List Char} {u : List Char} (hnl : '\n' ∉ l)
    (hu : lookaheadEntry ('\n' :: u) = true) :
    takeBody (l ++ '\n' :: u) = (l, '\n' :: u) := by
  induction l with
  | nil => rw [List.nil_append, takeBody_fire hu]
  | cons c t ih =>
    have hc : ¬c = '\n' := fun e => hnl (by simp [e])
    have ht : '\n' ∉ t := fun e => hnl (by simp [e])
    rw [List.cons_append,
      takeBody_cons (lookaheadEntry_cons_false (t ++ '\n' :: u) hc),
      ih ht]

theorem lookaheadEntry_lines_false {lines : List (List Char)}
    (h : ∀ l ∈ lines, goodLine l) :
    lookaheadEntry ('\n' :: (lines.map (· ++ ['\n'])).flatten) = false := by
  cases lines with
  | nil => rfl
  | cons b bs =>
    have hb := h b (by simp)
    have harr : ((b :: bs).map (· ++ ['\n'])).flatten =
        b ++ '\n' :: (bs.map (· ++ ['\n'])).flatten := by
      simp [List.flatten_cons]
    rw [harr]
    exact lookaheadEntry_nl_goodLine _ hb.2

theorem takeBody_lines_all {lines : List (List Char)}
    (h : ∀ l ∈ lines, goodLine l) :
    takeBody ((lines.map (· ++ ['\n'])).flatten) =
      ((lines.map (· ++ ['\n'])).flatten, []) := by
  induction lines with
  | nil => rfl
  | cons l ls ih =>
    have h1 := h l (by simp)
    have hw : lookaheadEntry ('\n' :: (ls.map (· ++ ['\n'])).flatten) = false :=
      lookaheadEntry_lines_false fun x hx => h x (by simp [hx])
    have harr : ((l :: ls).map (· ++ ['\n'])).flatten =
        l ++ '\n' :: (ls.map (· ++ ['\n'])).flatten := by
      simp [List.flatten_cons]
    rw [harr, takeBody_through_line h1.1 hw,
      ih fun x hx => h x (by simp [hx])]

theorem takeBody_lines_upto {lines : List (List Char)} {u : List Char}
    (hne : lines ≠ []) (h : ∀ l ∈ lines, goodLine l)
    (hu : lookaheadEntry ('\n' :: u) = true) :
    takeBody ((lines.map (· ++ ['\n'])).flatten ++ u) =
      (joinWith ['\n'] lines, '\n' :: u) := by
  induction lines with
  | nil => exact absurd rfl hne
  | cons l ls ih =>
    have h1 := h l (by simp)
    cases ls with
    | nil =>
      have harr : (([l]).map (· ++ ['\n'])).flatten ++ u = l ++ '\n' :: u := by
        simp
      rw [harr, takeBody_until h1.1 hu]
      rfl
    | cons m ms =>
      have harr : (((l :: m :: ms)).map (· ++ ['\n'])).flatten ++ u =
          l ++ '\n' :: ((((m :: ms)).map (· ++ ['\n'])).flatten ++ u) := by
        simp [List.flatten_cons]
      have hgood : ∀ x ∈ m :: ms, goodLine x := fun x hx => h x (by simp [hx])
      have hw : lookaheadEntry
          ('\n' :: ((((m :: ms)).map (· ++ ['\n'])).flatten ++ u)) = false := by
        have hm := h m (by simp)
        have harr2 : (((m :: ms)).map (· ++ ['\n'])).flatten ++ u =
            m ++ '\n' :: ((((ms)).map (· ++ ['\n'])).flatten ++ u) := by
          simp [List.flatten_cons]
        rw [harr2]
        exact lookaheadEntry_nl_goodLine _ hm.2
      rw [harr, takeBody_through_line h1.1 hw, ih (by simp) hgood,
        joinWith_cons ['\n'] l (m :: ms) (by simp)]
      simp

theorem splitOn_joined_lines {lines : List (List Char)}
    (h : ∀ l ∈ lines, '\n' ∉ l) :
    splitOnChar '\n' ((lines.map (· ++ ['\n'])).flatten) = lines ++ [[]] := by
  induction lines with
  | nil => rfl
  | cons l ls ih =>
    have harr : ((l :: ls).map (· ++ ['\n'])).flatten =
        l ++ '\n' :: (ls.map (· ++ ['\n'])).flatten := by
      simp [List.flatten_cons]
    rw [harr, splitOnChar_append _ (h l (by simp)),
      ih fun x hx => h x (by simp [hx])]
    rfl

theorem splitOn_joinWith {lines : List (List Char)} (hne : lines ≠ [])
    (h : ∀ l ∈ lines, '\n' ∉ l) :
    splitOnChar '\n' (joinWith ['\n'] lines) = lines := by
  induction lines with
  | nil => exact absurd rfl hne
  | cons l ls ih =>
    cases ls with
    | nil =>
      show splitOnChar '\n' l = [l]
      exact splitOnChar_not_mem (h l (by simp))
    | cons m ms =>
      rw [joinWith_cons ['\n'] l (m :: ms) (by simp), List.append_assoc,
        List.singleton_append, splitOnChar_append _ (h l (by simp)),
        ih (by simp) fun x hx => h x (by simp [hx])]

theorem trimChars_nil : trimChars [] = [] := rfl

theorem parseNumberedList_cons_nl (s : List Char) :
    parseNumberedList ('\n' :: s) = parseNumberedList s := by
  have hm : matchHead ('\n' :: s) = none :=
    matchHead_nondigit s (by decide)
  have hf : findMatch ('\n' :: s) = findMatch s := findMatch_cons_none hm
  cases hS : findMatch s with
  | none => rw [parseNumberedList_none (hf.trans hS), parseNumberedList_none hS]
  | some p =>
    obtain ⟨t, b, rest⟩ := p
    rw [parseNumberedList_step (hf.trans hS), parseNumberedList_step hS]

theorem lookaheadEntry_blockStart {b : NumBlock} (w : List Char)
    (hb : goodBlock b) :
    lookaheadEntry ('\n' :: (blockText b ++ w)) = true := by
  rw [lookaheadEntry_nl]
  have harr : blockText b ++ w = b.num ++ '.' ::
      ((b.title ++ '\n' :: (b.body.map (· ++ ['\n'])).flatten) ++ w) := by
    unfold blockText
    simp
  have hs := takeWhile_app Char.isDigit
    ('.' :: ((b.title ++ '\n' :: (b.body.map (· ++ ['\n'])).flatten) ++ w))
    (fun c hc => by
      obtain rfl : c = '.' := by simpa using hc.symm
      rfl) b.num hb.2.1
  rw [harr, hs.1, hs.2]
  have hne : b.num.isEmpty = false := by
    cases hnum : b.num with
    | nil => exact absurd hnum hb.1
    | cons a u => rfl
  simp [hne]

theorem mkNumbered_block_final {b : NumBlock} (hb : goodBlock b) :
    mkNumberedMsg (b.title.dropWhile jsWhitespace)
      ((b.body.map (· ++ ['\n'])).flatten) = blockMsg b := by
  unfold mkNumberedMsg blockMsg
  rw [trimChars_dropWhile]
  congr 1
  rw [splitOn_joined_lines fun l hl => (hb.2.2.2.2 l hl).1]
  simp [trimChars_nil]

theorem mkNumbered_block_mid {b : NumBlock} (hb : goodBlock b)
    (hne : b.body ≠ []) :
    mkNumberedMsg (b.title.dropWhile jsWhitespace)
      (joinWith ['\n'] b.body) = blockMsg b := by
  unfold mkNumberedMsg blockMsg
  rw [trimChars_dropWhile]
  congr 1
  rw [splitOn_joinWith hne fun l hl => (hb.2.2.2.2 l hl).1]

theorem parseNumbered_blocksText :
    ∀ bs : List NumBlock, chainOk bs →
      parseNumberedList (blocksText bs) = bs.map blockMsg := by
  intro bs
  induction bs with
  | nil =>
    intro _
    exact parseNumberedList_none rfl
  | cons b rest ih =>
    intro hc
    obtain ⟨hb, hbody, hrest⟩ := hc
    have harr : blocksText (b :: rest) = b.num ++ '.' ::
        (b.title ++ '\n' ::
          ((b.body.map (· ++ ['\n'])).flatten ++ blocksText rest)) := by
      unfold blocksText blockText
      simp [List.flatten_cons]
    have hmh : matchHead (blocksText (b :: rest)) =
        some (b.title.dropWhile jsWhitespace,
          (b.body.map (· ++ ['\n'])).flatten ++ blocksText rest) := by
      rw [harr]
      exact matchHead_app _ hb.1 hb.2.1 hb.2.2.1 hb.2.2.2.1
    have hfm := findMatch_of_matchHead hmh
    cases rest with
    | nil =>
      have htb : takeBody
          ((b.body.map (· ++ ['\n'])).flatten ++ blocksText []) =
          ((b.body.map (· ++ ['\n'])).flatten, []) := by
        have hV : (b.body.map (· ++ ['\n'])).flatten ++ blocksText [] =
            (b.body.map (· ++ ['\n'])).flatten := by
          simp [blocksText]
        rw [hV]
        exact takeBody_lines_all hb.2.2.2.2
      rw [htb] at hfm
      rw [parseNumberedList_step hfm, @parseNumberedList_none [] rfl,
        mkNumbered_block_final hb]
      rfl
    | cons b2 rest2 =>
      have hbne : b.body ≠ [] := by
        rcases hbody with h | h
        · exact absurd h (by simp)
        · exact h
      have hu : lookaheadEntry ('\n' :: blocksText (b2 :: rest2)) = true := by
        have harr2 : blocksText (b2 :: rest2) =
            blockText b2 ++ blocksText rest2 := by
          unfold blocksText
          simp [List.flatten_cons]
        rw [harr2]
        exact lookaheadEntry_blockStart _ hrest.1
      have htb := takeBody_lines_upto hbne hb.2.2.2.2 hu
      rw [htb] at hfm
      rw [parseNumberedList_step hfm, parseNumberedList_cons_nl,
        ih hrest, mkNumbered_block_mid hb hbne]
      rfl

/-! ## Strategy A lemmas -/

theorem jsArrayMap_tryMsg :
    ∀ {xs : List Json} {rs : List (List Char × List Char)},
      jsArrayMap recordOf xs = some rs →
      jsArrayMap tryMsg xs =
        some (rs.map fun p => (⟨trimChars p.1, trimChars p.2⟩ : CommitMessage)) := by
  intro xs
  induction xs with
  | nil =>
    intro rs h
    obtain rfl : ([] : List (List Char × List Char)) = rs := by
      simpa [jsArrayMap] using h
    rfl
  | cons j js ih =>
    intro rs h
    unfold jsArrayMap at h
    split at h
    next a as ha has =>
      cases Option.some.inj h
      have hj : tryMsg j =
          some (⟨trimChars a.1, trimChars a.2⟩ : CommitMessage) := by
        unfold tryMsg
        rw [ha]
        rfl
      conv_lhs => rw [jsArrayMap]
      rw [hj, ih has]
      rfl
    next => exact absurd h (by simp)

theorem strategyA_ok {dec : List Char → Except Unit Json}
    {resp : List Char} {xs : List Json} {rs : List (List Char × List Char)}
    (h1 : dec (stripFence resp) = Except.ok (Json.arr xs))
    (h2 : jsArrayMap recordOf xs = some rs) :
    strategyA dec resp =
      Except.ok (rs.map fun p =>
        (⟨trimChars p.1, trimChars p.2⟩ : CommitMessage)) := by
  simp only [strategyA, h1, jsArrayMap_tryMsg h2]

theorem strategyA_decodeFail {dec : List Char → Except Unit Json}
    {resp : List Char} {e : Unit}
    (h : dec (stripFence resp) = Except.error e) :
    strategyA dec resp = Except.error () := by
  unfold strategyA
  rw [h]

theorem strategyA_nonArray {dec : List Char → Except Unit Json}
    {resp : List Char} {j : Json}
    (h : dec (stripFence resp) = Except.ok j)
    (hj : ∀ xs, j ≠ Json.arr xs) :
    strategyA dec resp = Except.error () := by
  unfold strategyA
  rw [h]
  cases j with
  | arr xs => exact absurd rfl (hj xs)
  | null => rfl
  | bool b => rfl
  | num q => rfl
  | str s => rfl
  | obj f => rfl

theorem parseCommitMessagesI_of_strategyA_error
    {dec : List Char → Except Unit Json} {resp : List Char} {e : Unit}
    (h : strategyA dec resp = Except.error e) :
    parseCommitMessagesI dec resp = (parseNumberedList resp, Strat.B) := by
  unfold parseCommitMessagesI
  rw [h]

/-! ## Curation lemmas -/

theorem getFilteredDiff_skip {f : List Char} (hf : shouldSkipFile f = true)
    (pre post : List (List Char)) (diffOf : List Char → List Char)
    (maxKB : Nat) :
    getFilteredDiff (pre ++ f :: post) diffOf maxKB =
      getFilteredDiff (pre ++ post) diffOf maxKB := by
  induction pre with
  | nil =>
    rw [List.nil_append, List.nil_append]
    conv_lhs => rw [getFilteredDiff]
    rw [if_pos hf]
  | cons a pre ih =>
    rw [List.cons_append, List.cons_append]
    conv_lhs => rw [getFilteredDiff]
    conv_rhs => rw [getFilteredDiff]
    simp only [ih]

theorem getFilteredDiff_congr (files : List (List Char))
    (diffOf diffOf' : List Char → List Char) (maxKB : Nat)
    (h : ∀ g, shouldSkipFile g = false → diffOf g = diffOf' g) :
    getFilteredDiff files diffOf maxKB =
      getFilteredDiff files diffOf' maxKB := by
  induction files with
  | nil => rfl
  | cons f rest ih =>
    conv_lhs => rw [getFilteredDiff]
    conv_rhs => rw [getFilteredDiff]
    cases hs : shouldSkipFile f with
    | true => simp only [hs, if_true, ih]
    | false =>
      simp only [hs, Bool.false_eq_true, if_false, h f hs, ih]

theorem getFilteredDiff_spec (files : List (List Char))
    (diffOf : List Char → List Char) (maxKB : Nat) :
    getFilteredDiff files diffOf maxKB =
      (((files.filter fun f => !shouldSkipFile f &&
          !isFileTooLarge (diffOf f) maxKB).map diffOf).flatten,
       (files.filter fun f => !shouldSkipFile f &&
          isFileTooLarge (diffOf f) maxKB).map fun f =>
            (f, byteLen (diffOf f))) := by
  induction files with
  | nil => rfl
  | cons f rest ih =>
    conv_lhs => rw [getFilteredDiff]
    cases hs : shouldSkipFile f with
    | true => simp [hs, ih]
    | false =>
      cases hl : isFileTooLarge (diffOf f) maxKB with
      | true => simp [hs, hl, ih]
      | false => simp [hs, hl, ih]

/-! ## Shell round-trip lemmas -/

theorem escapeQuotes_cons (c : Char) (r : List Char) :
    escapeQuotes (c :: r) =
      (if c = '"' then ['\\', '"'] else [c]) ++ escapeQuotes r := rfl

theorem dquoteScan_plain {c : Char} (w : List Char)
    (h1 : ¬c = '"') (h2 : ¬c = '\\') :
    dquoteScan (c :: w) = (dquoteScan w).map fun p => (c :: p.1, p.2) := by
  rw [dquoteScan.eq_def]
  split
  next heq => exact absurd heq (by simp)
  next c2 r2 heq =>
    obtain ⟨he1, he2⟩ := List.cons.inj heq
    subst he1
    subst he2
    rw [if_neg h1, if_neg h2]

theorem dquoteScan_escQuote (w : List Char) :
    dquoteScan ('\\' :: '"' :: w) =
      (dquoteScan w).map fun p => ('"' :: p.1, p.2) := by
  rw [dquoteScan.eq_def]
  rfl

theorem dquoteScan_escape {t : List Char} (hb : '\\' ∉ t) :
    dquoteScan (escapeQuotes t ++ ['"']) = some (t, []) := by
  induction t with
  | nil => rfl
  | cons c r ih =>
    have hc : ¬c = '\\' := fun e => hb (by simp [e])
    have hr : '\\' ∉ r := fun e => hb (by simp [e])
    rw [escapeQuotes_cons]
    by_cases hq : c = '"'
    · subst hq
      rw [if_pos rfl]
      show dquoteScan ('\\' :: '"' :: (escapeQuotes r ++ ['"'])) = _
      rw [dquoteScan_escQuote, ih hr]
      rfl
    · rw [if_neg hq]
      show dquoteScan (c :: (escapeQuotes r ++ ['"'])) = _
      rw [dquoteScan_plain _ hq hc, ih hr]
      rfl

/-! ## Concrete inputs used by witnesses and counterexamples -/

/-- A decoder oracle for the response `"[]"`: decodes it to the empty
array, fails elsewhere (the behaviour `JSON.parse` has on that
input). -/
def decEmptyArr : List Char → Except Unit Json := fun s =>
  if s = "[]".toList then Except.ok (Json.arr []) else Except.error ()

/-- The decoded record of `oneDec`'s response, with padded fields. -/
def oneRecord : Json :=
  Json.obj [("title".toList, Json.str " feat: x ".toList),
            ("body".toList, Json.str " y ".toList)]

/-- A decoder oracle decoding the response `"ONE"` to a one-record
array. -/
def oneDec : List Char → Except Unit Json := fun s =>
  if s = "ONE".toList then Except.ok (Json.arr [oneRecord])
  else Except.error ()

/-- A decoder oracle decoding the response `"[0]"` to the array `[0]`
(as `JSON.parse` does). -/
def numDec : List Char → Except Unit Json := fun s =>
  if s = "[0]".toList then Except.ok (Json.arr [Json.num 0])
  else Except.error ()

/-- A decoder oracle that always fails (malformed input). -/
def failDec : List Char → Except Unit Json := fun _ => Except.error ()

/-- First block of the spec's fallback example. -/
def exBlock1 : NumBlock :=
  ⟨"1".toList, " \"feat: add x\"".toList,
   ["line one".toList, "line two".toList, []]⟩

/-- Second block of the spec's fallback example. -/
def exBlock2 : NumBlock :=
  ⟨"2".toList, " \"fix: y\"".toList, ["body2".toList]⟩

/-- A commit primitive that always fails (e.g. a hook rejection). -/
def hookFailPrim : List Char → Except (List Char) Unit :=
  fun _ => Except.error "hook rejected".toList

/-- A commit primitive that always succeeds. -/
def okPrim : List Char → Except (List Char) Unit := fun _ => Except.ok ()

/-- A backend oracle: first response unparseable, retry response a
numbered entry. -/
def retryRespond : Nat → List Char := fun n =>
  if n = 0 then "nothing here".toList else "1. a\nb\n".toList

/-- A diff accessor for curation witnesses. -/
def idDiff : List Char → List Char := fun f => f

/-! ## Claims -/

/-- C1, corrected (counterexample): the response `"[0]"` decodes as a
top-level list, yet the element is not a `title`/`body` record, so
`msg.title.trim()` throws, the exception falls through to Strategy B,
and Strategy B IS invoked — contradicting "the fallback Strategy B
parser is never invoked" for list-decoding responses. -/
theorem c1_counterexample :
    numDec (stripFence "[0]".toList) = Except.ok (Json.arr [Json.num 0]) ∧
    parseCommitMessagesI numDec "[0]".toList = ([], Strat.B) := by
  constructor
  · rfl
  · rfl

/-- C1 (amended): for every response that, after stripping an enclosing
fenced block, decodes as a top-level list all of whose elements are
records carrying string `title` and `body` fields, extract returns
exactly the decoded records in list order with title and body trimmed,
and the fallback Strategy B parser is never invoked; in particular a
decoded empty list yields the empty sequence. -/
theorem c1_structured_list {dec : List Char → Except Unit Json}
    {resp : List Char} {xs : List Json} {rs : List (List Char × List Char)}
    (h1 : dec (stripFence resp) = Except.ok (Json.arr xs))
    (h2 : jsArrayMap recordOf xs = some rs) :
    parseCommitMessagesI dec resp =
      (rs.map fun p => (⟨trimChars p.1, trimChars p.2⟩ : CommitMessage),
        Strat.A) := by
  unfold parseCommitMessagesI
  rw [strategyA_ok h1 h2]

/-- Witness for C1: a one-record response is decoded by Strategy A with
trimmed fields, and a decoded empty list yields the empty sequence via
Strategy A. -/
theorem c1_witness :
    parseCommitMessagesI oneDec "ONE".toList =
      ([⟨"feat: x".toList, "y".toList⟩], Strat.A) ∧
    parseCommitMessagesI decEmptyArr "[]".toList = ([], Strat.A) := by
  constructor
  · have h1 : oneDec (stripFence "ONE".toList) =
        Except.ok (Json.arr [oneRecord]) := rfl
    have h2 : jsArrayMap recordOf [oneRecord] =
        some [(" feat: x ".toList, " y ".toList)] := rfl
    exact (c1_structured_list h1 h2).trans (by decide)
  · have h1 : decEmptyArr (stripFence "[]".toList) =
        Except.ok (Json.arr []) := rfl
    have h2 : jsArrayMap recordOf [] =
        some ([] : List (List Char × List Char)) := rfl
    exact (c1_structured_list h1 h2).trans rfl

/-- C2: extract never raises: its exception-explicit embedding always
returns `Except.ok`; a structured-decode error or a decode to a
non-list value falls through to the Strategy B numbered-entry parser,
and when Strategy B finds no entry either, the fallen-through result is
the empty sequence. -/
theorem c2_extract_total (dec : List Char → Except Unit Json)
    (resp : List Char) :
    parseCommitMessagesE dec resp =
        Except.ok (parseCommitMessages dec resp) ∧
    (∀ e, dec (stripFence resp) = Except.error e →
      parseCommitMessages dec resp = parseNumberedList resp) ∧
    (∀ j, dec (stripFence resp) = Except.ok j → (∀ xs, j ≠ Json.arr xs) →
      parseCommitMessages dec resp = parseNumberedList resp) ∧
    (∀ e, strategyA dec resp = Except.error e → findMatch resp = none →
      parseCommitMessages dec resp = []) := by
  refine ⟨?_, ?_, ?_, ?_⟩
  · unfold parseCommitMessagesE parseCommitMessages parseCommitMessagesI
    cases strategyA dec resp <;> rfl
  · intro e he
    unfold parseCommitMessages
    rw [parseCommitMessagesI_of_strategyA_error (strategyA_decodeFail he)]
  · intro j hj hnj
    unfold parseCommitMessages
    rw [parseCommitMessagesI_of_strategyA_error (strategyA_nonArray hj hnj)]
  · intro e he hf
    unfold parseCommitMessages
    rw [parseCommitMessagesI_of_strategyA_error he]
    exact parseNumberedList_none hf

/-- Witness for C2: on a response both strategies reject, extract
returns `ok []` — no exception, empty outcome. -/
theorem c2_witness :
    parseCommitMessagesE failDec "xyz".toList =
      Except.ok (parseCommitMessages failDec "xyz".toList) ∧
    parseCommitMessages failDec "xyz".toList = [] := by
  constructor
  · exact (c2_extract_total failDec "xyz".toList).1
  · exact (c2_extract_total failDec "xyz".toList).2.2.2 () rfl rfl

/-- C3, corrected (counterexample): on the claim's own example input
the code keeps the surrounding quote characters: the entry title is
`"feat: add x"` WITH quotes — `parseNumberedList` never strips a quote
layer (that happened only in earlier revisions of the parser). -/
theorem c3_counterexample :
    parseNumberedList "1. \"feat: add x\"\nbody".toList =
      [⟨"\"feat: add x\"".toList, "body".toList⟩] ∧
    ¬("\"feat: add x\"".toList = "feat: add x".toList) := by
  constructor
  · rfl
  · decide

/-- C3 (amended): for every well-formed numbered response — a
concatenation of blocks, each a header line `<digits> "." <title>`
(title containing a non-whitespace character and no line terminator,
the line `'\n'`-terminated) followed by newline-terminated body lines
that do not start with `<digits> "."`, every non-final block having at
least one (possibly blank) body line — Strategy B returns one
CandidateMessage per block in order, whose title is `<title>` trimmed
with NO quote stripping, and whose body is the block's non-blank body
lines, each trimmed individually, joined by single line breaks. -/
theorem c3_numbered_entries :
    ∀ bs : List NumBlock, chainOk bs →
      parseNumberedList (blocksText bs) = bs.map blockMsg :=
  parseNumbered_blocksText

/-- Witness for C3: the spec's own fallback example (§8 property 5),
with the quotes kept. -/
theorem c3_witness :
    parseNumberedList
        "1. \"feat: add x\"\nline one\nline two\n\n2. \"fix: y\"\nbody2\n".toList =
      [⟨"\"feat: add x\"".toList, "line one\nline two".toList⟩,
       ⟨"\"fix: y\"".toList, "body2".toList⟩] := by
  have harr :
      "1. \"feat: add x\"\nline one\nline two\n\n2. \"fix: y\"\nbody2\n".toList =
        blocksText [exBlock1, exBlock2] := by decide
  rw [harr]
  have hchain : chainOk [exBlock1, exBlock2] :=
    ⟨by unfold goodBlock goodLine; decide, Or.inr (by decide),
     by unfold goodBlock goodLine; decide, Or.inl rfl, trivial⟩
  exact (c3_numbered_entries [exBlock1, exBlock2] hchain).trans (by decide)

/-- C4: the generation pipeline retries exactly once on an empty first
extraction: the second outcome is returned regardless of its content;
on a non-empty first extraction no second request is made; never more
than two requests, all carrying the same diff. -/
theorem c4_single_retry (dec : List Char → Except Unit Json)
    (diff : List Char) (respond : Nat → List Char) :
    (parseCommitMessages dec (respond 0) ≠ [] →
      generateCommitMessages dec diff respond =
        (parseCommitMessages dec (respond 0), [diff])) ∧
    (parseCommitMessages dec (respond 0) = [] →
      generateCommitMessages dec diff respond =
        (parseCommitMessages dec (respond 1), [diff, diff])) ∧
    (generateCommitMessages dec diff respond).2.length ≤ 2 := by
  unfold generateCommitMessages
  by_cases h : parseCommitMessages dec (respond 0) = []
  · rw [if_pos (by simp [h])]
    exact ⟨fun hne => absurd h hne, fun _ => rfl, by simp⟩
  · rw [if_neg (by simp [h])]
    exact ⟨fun _ => rfl, fun he => absurd he h, by simp⟩

/-- Witness for C4: an unparseable first response triggers exactly one
retry; the retry's outcome is returned with two identical requests
recorded. -/
theorem c4_witness :
    generateCommitMessages failDec "DIFF".toList retryRespond =
      ([⟨"a".toList, "b".toList⟩],
        ["DIFF".toList, "DIFF".toList]) := by
  have h :=
    (c4_single_retry failDec "DIFF".toList retryRespond).2.1 rfl
  exact h.trans (by decide)

/-- C5: a changed unit whose path matches an exclusion pattern
contributes nothing: dropping it from the unit list changes neither the
curated diff nor the skip log (so no log entry is produced for it), and
the result never depends on the diff text of any excluded unit (its
diff is never read, hence no size check happens). -/
theorem c5_exclusion {f : List Char} (hf : shouldSkipFile f = true) :
    (∀ (pre post : List (List Char)) (diffOf : List Char → List Char)
        (maxKB : Nat),
      getFilteredDiff (pre ++ f :: post) diffOf maxKB =
        getFilteredDiff (pre ++ post) diffOf maxKB) ∧
    (∀ (files : List (List Char)) (diffOf diffOf' : List Char → List Char)
        (maxKB : Nat),
      (∀ g, shouldSkipFile g = false → diffOf g = diffOf' g) →
      getFilteredDiff files diffOf maxKB =
        getFilteredDiff files diffOf' maxKB) :=
  ⟨getFilteredDiff_skip hf, getFilteredDiff_congr⟩

/-- Witness for C5: `package-lock.json` is excluded and contributes
nothing regardless of its diff. -/
theorem c5_witness :
    getFilteredDiff ["a.ts".toList, "package-lock.json".toList] idDiff 1 =
      getFilteredDiff ["a.ts".toList] idDiff 1 := by
  have h := (@c5_exclusion "package-lock.json".toList rfl).1
    ["a.ts".toList] [] idDiff 1
  simpa using h

/-- C6: curation filters per unit: a non-excluded unit is dropped and
logged exactly when its UTF-8 byte size exceeds the size budget,
independent of its siblings; the curated diff is the concatenation (no
separators) of the kept units' diffs in reported order, and the skip
log lists exactly the oversized non-excluded units in order. -/
theorem c6_curation_spec (files : List (List Char))
    (diffOf : List Char → List Char) (maxKB : Nat) :
    getFilteredDiff files diffOf maxKB =
      (((files.filter fun f => !shouldSkipFile f &&
          !isFileTooLarge (diffOf f) maxKB).map diffOf).flatten,
       (files.filter fun f => !shouldSkipFile f &&
          isFileTooLarge (diffOf f) maxKB).map fun f =>
            (f, byteLen (diffOf f))) :=
  getFilteredDiff_spec files diffOf maxKB

theorem commitChanges_staged {stagedNames : List Char}
    (m : CommitMessage) (primitive : List Char → Except (List Char) Unit)
    (h : (trimChars stagedNames).isEmpty = false) :
    commitChanges stagedNames m primitive =
      (match primitive (gitCommitCommand m) with
       | Except.error _ =>
         (Except.error "No changes staged for commit".toList,
           some (gitCommitCommand m))
       | Except.ok _ => (Except.ok (), some (gitCommitCommand m))) := by
  unfold commitChanges validateStagedChanges
  rw [if_neg (by simp [h])]

/-- C7, corrected (counterexample): when the commit primitive itself
fails with staged changes present, `commitChanges` surfaces the very
same `No changes staged for commit` error as the precondition failure —
the two outcomes are NOT distinguishable (the single `catch` block
rewrites every failure). -/
theorem c7_counterexample :
    (commitChanges "a.ts".toList ⟨"t".toList, "b".toList⟩ hookFailPrim).1 =
      Except.error "No changes staged for commit".toList ∧
    (commitChanges [] ⟨"t".toList, "b".toList⟩ okPrim).1 =
      Except.error "No changes staged for commit".toList ∧
    (commitChanges "a.ts".toList ⟨"t".toList, "b".toList⟩ hookFailPrim).2 ≠
      none := by
  refine ⟨rfl, rfl, by decide⟩

/-- C7 (amended): with no pending changes, apply fails without ever
invoking the commit primitive; when the primitive itself fails, the
failure is surfaced — but as the same `No changes staged for commit`
error as the precondition failure, not as a distinct one. -/
theorem c7_commit_failures (stagedNames : List Char) (m : CommitMessage)
    (primitive : List Char → Except (List Char) Unit) :
    ((trimChars stagedNames).isEmpty = true →
      commitChanges stagedNames m primitive =
        (Except.error "No changes staged for commit".toList, none)) ∧
    ((trimChars stagedNames).isEmpty = false → ∀ e,
      primitive (gitCommitCommand m) = Except.error e →
      commitChanges stagedNames m primitive =
        (Except.error "No changes staged for commit".toList,
          some (gitCommitCommand m))) := by
  constructor
  · intro h
    unfold commitChanges validateStagedChanges
    rw [if_pos h]
  · intro h e he
    rw [commitChanges_staged m primitive h, he]

/-- Witness for C7: both failure paths at concrete inputs. -/
theorem c7_witness :
    commitChanges [] ⟨"t".toList, "b".toList⟩ okPrim =
      (Except.error "No changes staged for commit".toList, none) ∧
    commitChanges "a.ts".toList ⟨"t".toList, "b".toList⟩ hookFailPrim =
      (Except.error "No changes staged for commit".toList,
        some (gitCommitCommand ⟨"t".toList, "b".toList⟩)) := by
  constructor
  · exact (c7_commit_failures [] ⟨"t".toList, "b".toList⟩ okPrim).1 rfl
  · exact (c7_commit_failures "a.ts".toList ⟨"t".toList, "b".toList⟩
      hookFailPrim).2 rfl ("hook rejected".toList) rfl

/-- C8, corrected (counterexample): with an empty body the final log
text is `title + "\n\n"`, not exactly `title`: the blank separator is
appended unconditionally. -/
theorem c8_counterexample :
    fullMessageOf ⟨"t".toList, []⟩ = "t\n\n".toList ∧
    ¬(fullMessageOf ⟨"t".toList, []⟩ = "t".toList) := by
  exact ⟨rfl, by decide⟩

/-- C8 (amended): the final log text handed to the commit primitive is
always `title + "\n\n" + body`, the blank separator included even when
`body` is the empty string. -/
theorem c8_always_separator (stagedNames : List Char) (m : CommitMessage)
    (primitive : List Char → Except (List Char) Unit)
    (h : (trimChars stagedNames).isEmpty = false) :
    (commitChanges stagedNames m primitive).2 =
      some ("git commit -m \"".toList ++
        escapeQuotes (m.title ++ '\n' :: '\n' :: m.body) ++ ['"']) := by
  rw [commitChanges_staged m primitive h]
  split <;> rfl

/-- Witness for C8: an empty body still gets the blank separator. -/
theorem c8_witness :
    (commitChanges "a.ts".toList ⟨"t".toList, []⟩ okPrim).2 =
      some "git commit -m \"t\n\n\"".toList := by
  have h := c8_always_separator "a.ts".toList ⟨"t".toList, []⟩ okPrim rfl
  exact h.trans (by decide)

/-- C9, corrected (counterexample): for the composed text `\"`
(backslash, double quote), escaping yields `\\"`; the shell tokenizer
reads `\\` as an escaped backslash and the bare `"` then terminates the
literal early: the recovered content is `\` — the original double quote
is reproduced zero times, not exactly once. -/
theorem c9_counterexample :
    '"' ∈ "\\\"".toList ∧
    dquoteScan (escapeQuotes "\\\"".toList ++ ['"']) =
      some ("\\".toList, "\"".toList) ∧
    ¬(dquoteScan (escapeQuotes "\\\"".toList ++ ['"']) =
      some ("\\\"".toList, [])) := by
  refine ⟨by decide, rfl, by decide⟩

/-- C9 (amended): for every composed log text containing a double quote
but no backslash, applying the escaping once and then un-escaping
through the shell's double-quote tokenizer recovers the text exactly —
each original double quote reproduced exactly once, with the closing
delimiter consumed and nothing left over. -/
theorem c9_escape_roundtrip {t : List Char} (_hq : '"' ∈ t)
    (hb : '\\' ∉ t) :
    dquoteScan (escapeQuotes t ++ ['"']) = some (t, []) :=
  dquoteScan_escape hb

/-- Witness for C9: a title with embedded quotes round-trips. -/
theorem c9_witness :
    dquoteScan (escapeQuotes "say \"hi\"".toList ++ ['"']) =
      some ("say \"hi\"".toList, []) :=
  c9_escape_roundtrip (by decide) (by decide)

/-- C10: an explicit `0` for `maxTokens`, `numberOfSuggestions` or
`maxFileSizeKB` is falsy under `||` and silently replaced by the
defaults 500, 3 and 100: at the public interface an explicit zero is
indistinguishable from an omitted option. -/
theorem c10_zero_is_default (opts : GeneratorOptions) :
    initializeOptions { opts with maxTokens := some 0 } =
      initializeOptions { opts with maxTokens := none } ∧
    (initializeOptions { opts with maxTokens := some 0 }).maxTokens = 500 ∧
    initializeOptions { opts with numberOfSuggestions := some 0 } =
      initializeOptions { opts with numberOfSuggestions := none } ∧
    (initializeOptions
      { opts with numberOfSuggestions := some 0 }).numberOfSuggestions = 3 ∧
    initializeOptions { opts with maxFileSizeKB := some 0 } =
      initializeOptions { opts with maxFileSizeKB := none } ∧
    (initializeOptions { opts with maxFileSizeKB := some 0 }).maxFileSizeKB =
      100 :=
  ⟨rfl, rfl, rfl, rfl, rfl, rfl⟩

end CommitAI
